import Mathlib

/-!
Shallow embedding of the core of the `mom-brain` personal-planner repository:
the event-analysis pipeline (Analysis Client, Batch Dispatcher, Task
Materializer, Task Bucketizer).

Conventions of the embedding:
* JavaScript `Date` instants are modelled as `Int` milliseconds since the
  epoch; `setDate(getDate() ± n)` is day arithmetic, i.e. `± n * dayMs`.
* The Prisma/SQLite store is a record of lists of rows plus a fresh-id
  counter; `@unique` columns are expressed as `countP … ≤ 1` invariants.
* SQL `ORDER BY` is modelled as a sort by the composite comparison the
  query requests (`dueDate ASC, priority DESC`, the latter being SQLite
  text comparison on the stored strings).
* The LLM provider and `JSON.parse` are external collaborators: the
  provider's reply and the parser are parameters of the embedded client.
-/

/-- Milliseconds in one day, the unit behind every `setDate` computation. -/
def dayMs : Int := 86400000

/-! ## Data model of `lib/db/tasks.ts` and `lib/ai/event-analyzer.ts` -/

/-- The `start`/`end` field of a Google calendar event: either a precise
timestamp (`dateTime`) or an all-day date (`date`), both optional. -/
structure EventTime where
  dateTime : Option Int
  date : Option Int
deriving DecidableEq, Repr

/-- The `CalendarEvent` shape consumed by the core (id, optional
summary/description/location, start and end times). -/
structure CalendarEvent where
  id : String
  summary : Option String
  description : Option String
  location : Option String
  start : EventTime
  stop : EventTime
deriving DecidableEq, Repr

/-- One entry of `EventAnalysis.suggestedTasks` in
`lib/ai/event-analyzer.ts` (title, type, days-before-event offset,
priority, optional description). -/
structure SuggestedTaskSpec where
  title : String
  type : String
  daysBeforeEvent : Int
  priority : String
  description : Option String
deriving DecidableEq, Repr

/-- The `EventAnalysis` interface of `lib/ai/event-analyzer.ts`. The
`forceReanalysis` field models the property read dynamically by
`saveAnalyzedEvent` (`analysis.forceReanalysis`); it is absent from the
TypeScript interface, so every value actually produced at runtime carries
`false` here. -/
structure EventAnalysis where
  eventType : String
  requiresSitter : Bool
  requiresTravel : Bool
  requiresFormalAttire : Bool
  suggestedTasks : List SuggestedTaskSpec
  preparations : List String
  notes : String
  forceReanalysis : Bool
deriving DecidableEq, Repr

/-- A row of the `AnalyzedEvent` table: one cached analysis per source
calendar event id (`eventId` is `@unique`), owning suggested-task rows. -/
structure AnalyzedEventRec where
  id : Nat
  eventId : String
  householdId : String
  eventTitle : String
  eventStart : Int
  eventEnd : Int
  eventType : String
  requiresSitter : Bool
  requiresTravel : Bool
  requiresFormalAttire : Bool
  analysisData : EventAnalysis
  analyzedAt : Int
deriving DecidableEq, Repr

/-- A row of the `SuggestedTask` table: a persisted task derived from one
suggested task of an analysis. -/
structure SuggestedTaskRec where
  id : Nat
  analyzedEventId : Nat
  householdId : String
  title : String
  description : Option String
  type : String
  priority : String
  dueDate : Int
  status : String
deriving DecidableEq, Repr

/-- The durable store: the two tables touched by the core plus a counter
supplying fresh row ids. -/
structure Db where
  analyzedEvents : List AnalyzedEventRec
  suggestedTasks : List SuggestedTaskRec
  nextId : Nat
deriving DecidableEq, Repr

/-- The value `saveAnalyzedEvent` resolves with: the analyzed-event row
together with its owned task rows (`include: { tasks: true }` on the cached
path, the freshly created rows on the write path). -/
structure SaveResult where
  record : AnalyzedEventRec
  tasks : List SuggestedTaskRec
deriving DecidableEq, Repr

/-! ## Task Materializer: `saveAnalyzedEvent` (`lib/db/tasks.ts`) -/

/-- `new Date(event.start.dateTime || event.start.date || new Date())`:
the start instant of an event, falling back to the current time. -/
def eventStartDate (event : CalendarEvent) (now : Int) : Int :=
  ((event.start.dateTime).orElse fun _ => event.start.date).getD now

/-- `new Date(event.end.dateTime || event.end.date || new Date())`. -/
def eventEndDate (event : CalendarEvent) (now : Int) : Int :=
  ((event.stop.dateTime).orElse fun _ => event.stop.date).getD now

/-- Prisma `upsert` on the `@unique` column `eventId`: replace the first
row with that event id (the only one, by the unique constraint). -/
def upsertByEventId (eventId : String) (updated : AnalyzedEventRec) :
    List AnalyzedEventRec → List AnalyzedEventRec
  | [] => []
  | r :: rs =>
    if r.eventId == eventId then updated :: rs
    else r :: upsertByEventId eventId updated rs

/-- The task row created for one suggested task of an analysis: due date
is the event start shifted back by `daysBeforeEvent` days
(`dueDate.setDate(dueDate.getDate() - task.daysBeforeEvent)`), status
always starts as `pending`. -/
def mkTaskRec (freshId : Nat) (analyzedEventId : Nat) (householdId : String)
    (startDate : Int) (task : SuggestedTaskSpec) : SuggestedTaskRec :=
  { id := freshId
    analyzedEventId := analyzedEventId
    householdId := householdId
    title := task.title
    description := task.description
    type := task.type
    priority := task.priority
    dueDate := startDate - task.daysBeforeEvent * dayMs
    status := "pending" }

/-- The `analysis.suggestedTasks.map(task => prisma.suggestedTask.create(…))`
step: one fresh task row per suggested task, with ids drawn from the
fresh-id counter. -/
def createTasks (freshId : Nat) (analyzedEventId : Nat) (householdId : String)
    (startDate : Int) : List SuggestedTaskSpec → List SuggestedTaskRec
  | [] => []
  | task :: rest =>
    mkTaskRec freshId analyzedEventId householdId startDate task ::
      createTasks (freshId + 1) analyzedEventId householdId startDate rest

/-- The tail of the write path of `saveAnalyzedEvent`, shared by the
create and update branches of the upsert: delete every task owned by the
(upserted) analyzed event, then insert one fresh task row per suggested
task of the analysis. -/
def writeTasks (householdId : String) (analysis : EventAnalysis)
    (startDate : Int) (rec : AnalyzedEventRec)
    (analyzedEvents : List AnalyzedEventRec) (tasks : List SuggestedTaskRec)
    (nextId : Nat) : SaveResult × Db :=
  let kept := tasks.filter fun t => ! (t.analyzedEventId == rec.id)
  let newTasks :=
    createTasks nextId rec.id householdId startDate analysis.suggestedTasks
  (⟨rec, newTasks⟩,
   ⟨analyzedEvents, kept ++ newTasks, nextId + analysis.suggestedTasks.length⟩)

/-- `saveAnalyzedEvent(householdId, event, analysis)` of `lib/db/tasks.ts`:
if an `AnalyzedEvent` for this event id exists and re-analysis is not
forced, return the cached row with its tasks untouched; otherwise upsert
the analyzed event, delete its previously owned tasks, and insert the task
rows derived from `analysis.suggestedTasks`. -/
def saveAnalyzedEvent (householdId : String) (event : CalendarEvent)
    (analysis : EventAnalysis) (now : Int) (db : Db) : SaveResult × Db :=
  let startDate := eventStartDate event now
  let endDate := eventEndDate event now
  match db.analyzedEvents.find? fun r => r.eventId == event.id with
  | some existing =>
    if !analysis.forceReanalysis then
      (⟨existing,
        db.suggestedTasks.filter fun t => t.analyzedEventId == existing.id⟩,
       db)
    else
      let updated : AnalyzedEventRec :=
        { existing with
          eventTitle := event.summary.getD "Untitled"
          eventStart := startDate
          eventEnd := endDate
          eventType := analysis.eventType
          requiresSitter := analysis.requiresSitter
          requiresTravel := analysis.requiresTravel
          requiresFormalAttire := analysis.requiresFormalAttire
          analysisData := analysis
          analyzedAt := now }
      writeTasks householdId analysis startDate updated
        (upsertByEventId event.id updated db.analyzedEvents)
        db.suggestedTasks db.nextId
  | none =>
    let created : AnalyzedEventRec :=
      { id := db.nextId
        eventId := event.id
        householdId := householdId
        eventTitle := event.summary.getD "Untitled"
        eventStart := startDate
        eventEnd := endDate
        eventType := analysis.eventType
        requiresSitter := analysis.requiresSitter
        requiresTravel := analysis.requiresTravel
        requiresFormalAttire := analysis.requiresFormalAttire
        analysisData := analysis
        analyzedAt := now }
    writeTasks householdId analysis startDate created
      (db.analyzedEvents ++ [created]) db.suggestedTasks (db.nextId + 1)

/-! ## Task Bucketizer: `getUpcomingTasks` (`lib/db/tasks.ts`) -/

/-- The grouped result of `getUpcomingTasks`. -/
structure UpcomingTasks where
  overdue : List SuggestedTaskRec
  thisWeek : List SuggestedTaskRec
  nextWeek : List SuggestedTaskRec
  later : List SuggestedTaskRec
  all : List SuggestedTaskRec
deriving DecidableEq, Repr

/-- Lexicographic comparison of character sequences by code point, the
order SQLite's default BINARY collation gives the stored ASCII priority
strings. -/
def charListLe : List Char → List Char → Bool
  | [], _ => true
  | _ :: _, [] => false
  | c :: cs, d :: ds =>
    if c.toNat < d.toNat then true
    else if d.toNat < c.toNat then false
    else charListLe cs ds

/-- SQLite BINARY text comparison of two strings. -/
def textLe (a b : String) : Bool := charListLe a.toList b.toList

/-- The composite order requested by
`orderBy: [{ dueDate: 'asc' }, { priority: 'desc' }]`: ascending due date,
ties broken by descending SQLite text comparison of the stored priority
strings. -/
def taskBefore (a b : SuggestedTaskRec) : Prop :=
  a.dueDate < b.dueDate ∨
    (a.dueDate = b.dueDate ∧ textLe b.priority a.priority = true)

instance : DecidableRel taskBefore := fun a b => by
  unfold taskBefore; infer_instance

instance : IsTotal SuggestedTaskRec taskBefore where
  total a b := by
    have key : ∀ x y : List Char, charListLe x y = true ∨ charListLe y x = true := by
      intro x
      induction x with
      | nil => intro y; exact Or.inl rfl
      | cons c cs ih =>
        intro y
        cases y with
        | nil => exact Or.inr rfl
        | cons d ds =>
          rcases Nat.lt_trichotomy c.toNat d.toNat with h | h | h
          · left; simp [charListLe, h]
          · rcases ih ds with hr | hr
            · left
              simp [charListLe, show ¬ c.toNat < d.toNat by omega,
                show ¬ d.toNat < c.toNat by omega, hr]
            · right
              simp [charListLe, show ¬ c.toNat < d.toNat by omega,
                show ¬ d.toNat < c.toNat by omega, hr]
          · right; simp [charListLe, h]
    unfold taskBefore
    rcases lt_trichotomy a.dueDate b.dueDate with h | h | h
    · exact Or.inl (Or.inl h)
    · rcases key b.priority.toList a.priority.toList with hp | hp
      · exact Or.inl (Or.inr ⟨h, hp⟩)
      · exact Or.inr (Or.inr ⟨h.symm, hp⟩)
    · exact Or.inr (Or.inl h)

instance : IsTrans SuggestedTaskRec taskBefore where
  trans a b c hab hbc := by
    have key : ∀ x y z : List Char, charListLe x y = true →
        charListLe y z = true → charListLe x z = true := by
      intro x
      induction x with
      | nil => intro y z h1 h2; rfl
      | cons c cs ih =>
        intro y z hxy hyz
        cases y with
        | nil => simp [charListLe] at hxy
        | cons d ds =>
          cases z with
          | nil => simp [charListLe] at hyz
          | cons e es =>
            simp only [charListLe] at hxy hyz ⊢
            rcases Nat.lt_trichotomy c.toNat d.toNat with hcd | hcd | hcd
            · rcases Nat.lt_trichotomy d.toNat e.toNat with hde | hde | hde
              · simp [show c.toNat < e.toNat by omega]
              · simp [show c.toNat < e.toNat by omega]
              · simp [show ¬ d.toNat < e.toNat by omega,
                  show e.toNat < d.toNat by omega] at hyz
            · rcases Nat.lt_trichotomy d.toNat e.toNat with hde | hde | hde
              · simp [show c.toNat < e.toNat by omega]
              · simp only [show ¬ c.toNat < d.toNat by omega,
                  show ¬ d.toNat < c.toNat by omega, if_false] at hxy
                simp only [show ¬ d.toNat < e.toNat by omega,
                  show ¬ e.toNat < d.toNat by omega, if_false] at hyz
                simp only [show ¬ c.toNat < e.toNat by omega,
                  show ¬ e.toNat < c.toNat by omega, if_false]
                exact ih ds es hxy hyz
              · simp [show ¬ d.toNat < e.toNat by omega,
                  show e.toNat < d.toNat by omega] at hyz
            · simp [show ¬ c.toNat < d.toNat by omega,
                show d.toNat < c.toNat by omega] at hxy
    unfold taskBefore at hab hbc ⊢
    rcases hab with h1 | ⟨e1, p1⟩
    · rcases hbc with h2 | ⟨e2, p2⟩
      · exact Or.inl (h1.trans h2)
      · exact Or.inl (by rw [← e2]; exact h1)
    · rcases hbc with h2 | ⟨e2, p2⟩
      · exact Or.inl (by rw [e1]; exact h2)
      · exact Or.inr ⟨e1.trans e2, key _ _ _ p2 p1⟩

/-- The row filter of the `findMany` in `getUpcomingTasks`: household
scope, `status IN ('pending')` unless completed tasks are included, and
`now ≤ dueDate ≤ now + daysAhead` days (the `gte: new Date()` bound hides
past-due tasks). -/
def upcomingFilter (householdId : String) (daysAhead : Int)
    (includeCompleted : Bool) (now : Int) (t : SuggestedTaskRec) : Bool :=
  t.householdId == householdId
    && (includeCompleted || t.status == "pending")
    && t.dueDate ≤ now + daysAhead * dayMs
    && now ≤ t.dueDate

/-- `getUpcomingTasks(householdId, { daysAhead, includeCompleted })` of
`lib/db/tasks.ts`: query the pending tasks of the household due between
now and `daysAhead` days out, sorted by due date then descending priority
string, and group them into overdue / this-week / next-week / later by
due date relative to now. The `ORDER BY` of the store is modelled as an
insertion sort by the composite comparison. -/
def getUpcomingTasks (householdId : String) (daysAhead : Int)
    (includeCompleted : Bool) (now : Int) (db : Db) : UpcomingTasks :=
  let tasks := (db.suggestedTasks.filter
    (upcomingFilter householdId daysAhead includeCompleted now)).insertionSort
    taskBefore
  let thisWeekEnd := now + 7 * dayMs
  let nextWeekEnd := now + 14 * dayMs
  { overdue := tasks.filter fun t => t.dueDate < now
    thisWeek := tasks.filter fun t => now ≤ t.dueDate && t.dueDate < thisWeekEnd
    nextWeek := tasks.filter fun t =>
      thisWeekEnd ≤ t.dueDate && t.dueDate < nextWeekEnd
    later := tasks.filter fun t => nextWeekEnd ≤ t.dueDate
    all := tasks }

/-! ## Analyze route: `POST /api/calendar/analyze` (skip-cache variant) -/

/-- `new Date(event.start?.dateTime || event.start?.date || '')` as used by
the route's relevance filter; `none` stands for the invalid date produced
by the empty-string fallback (every comparison on it is false). -/
def routeEventDate (e : CalendarEvent) : Option Int :=
  (e.start.dateTime).orElse fun _ => e.start.date

/-- The persistence phase of the `POST /api/calendar/analyze` handler with
the `skipCache` flag: the `if (skipCache && NODE_ENV === 'development')`
branch only logs, so the flag changes no state; events from the last week
onward are kept, capped at 10, and each one with an analysis in the batch
result is saved through `saveAnalyzedEvent`. -/
def analyzeRoutePost (householdId : String) (skipCache : Bool)
    (devMode : Bool) (events : List CalendarEvent)
    (analyses : List (String × EventAnalysis)) (now : Int) (db : Db) : Db :=
  let _ := skipCache && devMode
  let relevantEvents := events.filter fun e =>
    match routeEventDate e with
    | some d => now - 7 * dayMs ≤ d
    | none => false
  let eventsToAnalyze := relevantEvents.take 10
  eventsToAnalyze.foldl
    (fun acc e =>
      match analyses.lookup e.id with
      | some a => (saveAnalyzedEvent householdId e a now acc).2
      | none => acc)
    db

/-! ## Settings-aware Analysis Client and Batch Dispatcher
(`lib/ai/event-analyzer.ts`, enhanced version) -/

namespace Enhanced

/-- A JSON value, the possible results of `JSON.parse`. -/
inductive JsValue where
  | null
  | bool (b : Bool)
  | num (q : ℚ)
  | str (s : String)
  | arr (elems : List JsValue)
  | obj (fields : List (String × JsValue))
deriving Repr

/-- JavaScript truthiness of a parsed JSON value. -/
def jsTruthy : JsValue → Bool
  | .null => false
  | .bool b => b
  | .num q => ¬ q == 0
  | .str s => ¬ s == ""
  | .arr _ => true
  | .obj _ => true

/-- JavaScript property access `v[key]` on a parsed JSON value: a
`TypeError` (the `.error` case) on `null`, the field or `undefined`
(`none`) on an object, `undefined` on every other value. -/
def jsGet : JsValue → String → Except Unit (Option JsValue)
  | .null, _ => .error ()
  | .obj fields, key => .ok (fields.lookup key)
  | _, _ => .ok none

/-- JavaScript `x || d` applied to a possibly-`undefined` value. -/
def jsOr (x : Option JsValue) (d : JsValue) : JsValue :=
  match x with
  | some v => if jsTruthy v then v else d
  | none => d

/-- The `EventAnalysis` interface of the enhanced analyzer. The code
performs no type validation on the parsed fields, so the embedding keeps
the runtime JSON values. -/
structure EventAnalysis where
  eventType : JsValue
  requiresSitter : JsValue
  requiresTravel : JsValue
  requiresFormalAttire : JsValue
  tasks : JsValue
  reasoning : JsValue
  confidence : JsValue
deriving Repr

/-- The default analysis returned by the client's `catch` block:
type `other`, all flags false, no tasks, confidence 0.1. -/
def failureAnalysis : EventAnalysis :=
  { eventType := .str "other"
    requiresSitter := .bool false
    requiresTravel := .bool false
    requiresFormalAttire := .bool false
    tasks := .arr []
    reasoning := .str "Analysis failed - using defaults"
    confidence := .num 0.1 }

/-- The result object built on the success path of the client, one
`field || default` per field; property access on `null` raises. -/
def buildAnalysis (analysis : JsValue) : Except Unit EventAnalysis := do
  let et ← jsGet analysis "eventType"
  let rs ← jsGet analysis "requiresSitter"
  let rt ← jsGet analysis "requiresTravel"
  let rf ← jsGet analysis "requiresFormalAttire"
  let tk ← jsGet analysis "tasks"
  let rg ← jsGet analysis "reasoning"
  let cf ← jsGet analysis "confidence"
  pure
    { eventType := jsOr et (.str "other")
      requiresSitter := jsOr rs (.bool false)
      requiresTravel := jsOr rt (.bool false)
      requiresFormalAttire := jsOr rf (.bool false)
      tasks := jsOr tk (.arr [])
      reasoning := jsOr rg (.str "")
      confidence := jsOr cf (.num 0.8) }

/-- The span matched by the regex `/\x7b[\s\S]*\x7d/`: from the first
opening brace to the last closing brace, when the first opening brace
comes before the last closing brace. -/
def braceSpan (s : String) : Option String :=
  let cs := s.toList
  match cs.findIdx? (· == '\x7b'), cs.reverse.findIdx? (· == '\x7d') with
  | some i, some rj =>
    let j := cs.length - 1 - rj
    if i < j then some ⟨(cs.drop i).take (j - i + 1)⟩ else none
  | _, _ => none

/-- The outcome of the provider call `anthropic.messages.create`: a
rejection, a non-text content block, or a text reply. -/
inductive ProviderResponse where
  | failure
  | nonText
  | text (body : String)
deriving DecidableEq, Repr

/-- `analyzeCalendarEvent` of the enhanced analyzer, from the provider
reply on: extract a brace-delimited span (falling back to the whole
text), `JSON.parse` it (the parser is a parameter, `.error` is a thrown
`SyntaxError`), build the result with per-field fallbacks, and convert
any thrown error into `failureAnalysis`. Prompt construction is pure and
is not modelled. -/
def analyzeCalendarEvent (parse : String → Except Unit JsValue)
    (response : ProviderResponse) : EventAnalysis :=
  match response with
  | .failure => failureAnalysis
  | .nonText => failureAnalysis
  | .text body =>
    match parse ((braceSpan body).getD body) with
    | .error _ => failureAnalysis
    | .ok v =>
      match buildAnalysis v with
      | .error _ => failureAnalysis
      | .ok a => a

/-- The default analysis the Batch Dispatcher records for an event whose
analysis threw a non-rate-limit error. -/
def batchDefault : EventAnalysis :=
  { eventType := .str "other"
    requiresSitter := .bool false
    requiresTravel := .bool false
    requiresFormalAttire := .bool false
    tasks := .arr []
    reasoning := .str "Analysis failed due to error"
    confidence := .num 0.1 }

/-- One attempted call of the Analysis Client as the dispatcher sees it:
a resolved analysis, a rejection whose message contains `429`, or any
other rejection. -/
inductive CallOutcome where
  | ok (analysis : EventAnalysis)
  | rateLimitError
  | otherError
deriving Repr

/-- An observable step of the dispatcher loop: a client call for an event,
an awaited pause in milliseconds, or a `results.set`. -/
inductive DispatchAction where
  | call (eventId : String)
  | pause (ms : Nat)
  | record (eventId : String) (analysis : EventAnalysis)
deriving Repr

/-- A sequence of attempt outcomes lets the retry loop terminate exactly
when some attempt is not a rate-limit error. -/
def terminates (outcomes : List CallOutcome) : Bool :=
  outcomes.any fun o =>
    match o with
    | .rateLimitError => false
    | _ => true

/-- The dispatcher's handling of one event, driven by the successive
outcomes of its client calls: success records the analysis (followed by
the 1.5s pacing delay unless the event is the last); a rate-limit error
pauses 60s and retries the same event; any other error records
`batchDefault` and moves on without retry or delay. An exhausted outcome
list (`none`) stands for a retry loop that never terminates. -/
def runAttempts (eventId : String) (isLast : Bool) :
    List CallOutcome → Option EventAnalysis × List DispatchAction
  | [] => (none, [])
  | .ok a :: _ =>
    (some a,
     [.call eventId, .record eventId a] ++ if isLast then [] else [.pause 1500])
  | .otherError :: _ =>
    (some batchDefault, [.call eventId, .record eventId batchDefault])
  | .rateLimitError :: rest =>
    let r := runAttempts eventId isLast rest
    (r.1, .call eventId :: .pause 60000 :: r.2)

/-- `results.set(key, value)` on a JavaScript `Map` modelled as an
association list: overwrite the entry for the key in place, else append. -/
def mapSet : List (String × EventAnalysis) → String → EventAnalysis →
    List (String × EventAnalysis)
  | [], key, value => [(key, value)]
  | p :: rest, key, value =>
    if p.1 == key then (key, value) :: rest else p :: mapSet rest key value

/-- Recognizer for a dispatcher call action addressed to one event id. -/
def isCallTo (key : String) : DispatchAction → Bool
  | .call i => i == key
  | _ => false

/-- The dispatcher loop of `analyzeBatchEvents` over the remaining events,
carrying the results map; a never-terminating retry loop stops the whole
batch, producing no further entries. -/
def analyzeBatchGo (oracle : CalendarEvent → List CallOutcome) :
    List (String × EventAnalysis) → List CalendarEvent →
    List (String × EventAnalysis) × List DispatchAction
  | acc, [] => (acc, [])
  | acc, e :: rest =>
    match runAttempts e.id rest.isEmpty (oracle e) with
    | (some a, log) =>
      let next := analyzeBatchGo oracle (mapSet acc e.id a) rest
      (next.1, log ++ next.2)
    | (none, log) => (acc, log)

/-- `analyzeBatchEvents` of the enhanced analyzer: sequentially analyze
the events, keyed by event id, with the per-event retry and fallback
policy of `runAttempts`. The `oracle` gives the outcome of each
successive client call for an event. -/
def analyzeBatchEvents (oracle : CalendarEvent → List CallOutcome)
    (events : List CalendarEvent) :
    List (String × EventAnalysis) × List DispatchAction :=
  analyzeBatchGo oracle [] events

/-- The dispatcher as composed in the source, where every call is one
invocation of `analyzeCalendarEvent`: the client resolves on every input,
so each event's single attempt succeeds. -/
def composedOracle (parse : String → Except Unit JsValue)
    (reply : CalendarEvent → ProviderResponse) :
    CalendarEvent → List CallOutcome :=
  fun e => [.ok (analyzeCalendarEvent parse (reply e))]

end Enhanced

/-! ## Spec-side definitions, for comparison with the code -/

/-- The priority ranking the spec asserts for the tie-break: high before
medium before low. Stated from the spec's words, to be compared with the
order the query actually produces. -/
def specPriorityRank (p : String) : Nat :=
  if p == "high" then 2 else if p == "medium" then 1 else 0

/-- The overall sort order claimed by the spec: ascending due date, ties
broken by descending priority with high before medium before low. Stated
from the spec's words. -/
def claimedTaskBefore (a b : SuggestedTaskRec) : Prop :=
  a.dueDate < b.dueDate ∨
    (a.dueDate = b.dueDate ∧ specPriorityRank b.priority ≤ specPriorityRank a.priority)

instance : DecidableRel claimedTaskBefore := fun a b => by
  unfold claimedTaskBefore; infer_instance

/-! ## Concrete sample inputs -/

/-- An empty store. -/
def emptyDb : Db := ⟨[], [], 0⟩

/-- A calendar event starting twenty days out. -/
def sampleEvent : CalendarEvent :=
  ⟨"evt1", some "Birthday Party", none, none,
   ⟨some (20 * dayMs), none⟩, ⟨some (20 * dayMs + 3600000), none⟩⟩

/-- A second calendar event with a distinct id. -/
def sampleEvent2 : CalendarEvent :=
  ⟨"evt2", some "Dentist", none, none,
   ⟨some (5 * dayMs), none⟩, ⟨some (5 * dayMs + 3600000), none⟩⟩

/-- An analysis with one suggested task; as at runtime, no force flag. -/
def sampleAnalysis : EventAnalysis :=
  { eventType := "family"
    requiresSitter := true
    requiresTravel := false
    requiresFormalAttire := false
    suggestedTasks := [⟨"Book babysitter", "booking", 7, "high", none⟩]
    preparations := []
    notes := ""
    forceReanalysis := false }

/-- A different analysis for the same event, with the force flag set. -/
def sampleAnalysisForced : EventAnalysis :=
  { eventType := "social"
    requiresSitter := false
    requiresTravel := false
    requiresFormalAttire := true
    suggestedTasks := [⟨"Buy gift", "shopping", 3, "medium", none⟩,
                       ⟨"Pick outfit", "preparation", 1, "low", none⟩]
    preparations := []
    notes := ""
    forceReanalysis := true }

/-- A cached analyzed-event row for `sampleEvent`, from a prior analysis. -/
def cachedRec : AnalyzedEventRec :=
  { id := 0
    eventId := "evt1"
    householdId := "h"
    eventTitle := "Birthday Party"
    eventStart := 20 * dayMs
    eventEnd := 20 * dayMs + 3600000
    eventType := "family"
    requiresSitter := true
    requiresTravel := false
    requiresFormalAttire := false
    analysisData := sampleAnalysis
    analyzedAt := 0 }

/-- A task row owned by `cachedRec`. -/
def oldTask : SuggestedTaskRec :=
  { id := 1
    analyzedEventId := 0
    householdId := "h"
    title := "Book babysitter"
    description := none
    type := "booking"
    priority := "high"
    dueDate := 13 * dayMs
    status := "pending" }

/-- A store already holding `cachedRec` and its task. -/
def cachedDb : Db := ⟨[cachedRec], [oldTask], 2⟩

/-- A pending task due one day in the past. -/
def overdueTask : SuggestedTaskRec :=
  { id := 0
    analyzedEventId := 0
    householdId := "h"
    title := "Missed prep"
    description := none
    type := "preparation"
    priority := "high"
    dueDate := -dayMs
    status := "pending" }

/-- A store holding only the past-due pending task. -/
def overdueDb : Db := ⟨[], [overdueTask], 1⟩

/-- A pending high-priority task due in one day. -/
def tHigh : SuggestedTaskRec :=
  { id := 0
    analyzedEventId := 0
    householdId := "h"
    title := "High one"
    description := none
    type := "preparation"
    priority := "high"
    dueDate := dayMs
    status := "pending" }

/-- A pending medium-priority task due at the same instant as `tHigh`. -/
def tMedium : SuggestedTaskRec :=
  { id := 1
    analyzedEventId := 0
    householdId := "h"
    title := "Medium one"
    description := none
    type := "preparation"
    priority := "medium"
    dueDate := dayMs
    status := "pending" }

/-- A store holding the two equal-due-date tasks. -/
def tieDb : Db := ⟨[], [tHigh, tMedium], 2⟩

/-- An attempt oracle: `evt1` is rate-limited once then succeeds, every
other event fails with a non-rate-limit error. -/
def sampleOracle : CalendarEvent → List Enhanced.CallOutcome :=
  fun e =>
    if e.id == "evt1" then [.rateLimitError, .ok Enhanced.failureAnalysis]
    else [.otherError]

/-- An analysis shaped like the values the batch analyzer actually hands
to the route: new content, but no force flag (the interface has none). -/
def sampleAnalysisUnforced : EventAnalysis :=
  { sampleAnalysisForced with forceReanalysis := false }

/-! ## Helper lemmas -/

theorem createTasks_aeId (n aeId : Nat) (hh : String) (sd : Int)
    (l : List SuggestedTaskSpec) :
    ∀ t ∈ createTasks n aeId hh sd l, t.analyzedEventId = aeId := by
  induction l generalizing n with
  | nil => simp [createTasks]
  | cons st rest ih =>
    intro t ht
    rcases (by simpa [createTasks] using ht :
        t = mkTaskRec n aeId hh sd st ∨ t ∈ createTasks (n + 1) aeId hh sd rest)
      with h | h
    · subst h; rfl
    · exact ih (n + 1) t h

theorem createTasks_id_ge (n aeId : Nat) (hh : String) (sd : Int)
    (l : List SuggestedTaskSpec) :
    ∀ t ∈ createTasks n aeId hh sd l, n ≤ t.id := by
  induction l generalizing n with
  | nil => simp [createTasks]
  | cons st rest ih =>
    intro t ht
    rcases (by simpa [createTasks] using ht :
        t = mkTaskRec n aeId hh sd st ∨ t ∈ createTasks (n + 1) aeId hh sd rest)
      with h | h
    · subst h; exact le_refl n
    · exact le_trans (Nat.le_succ n) (ih (n + 1) t h)

theorem createTasks_spec (n aeId : Nat) (hh : String) (sd : Int)
    (l : List SuggestedTaskSpec) :
    ∀ t ∈ createTasks n aeId hh sd l,
      t.status = "pending" ∧ ∃ st ∈ l, t.title = st.title ∧
        t.dueDate = sd - st.daysBeforeEvent * dayMs := by
  induction l generalizing n with
  | nil => simp [createTasks]
  | cons st rest ih =>
    intro t ht
    rcases (by simpa [createTasks] using ht :
        t = mkTaskRec n aeId hh sd st ∨ t ∈ createTasks (n + 1) aeId hh sd rest)
      with h | h
    · subst h; exact ⟨rfl, st, by simp, rfl, rfl⟩
    · obtain ⟨h1, st', hst', h2⟩ := ih (n + 1) t h
      exact ⟨h1, st', by simp [hst'], h2⟩

theorem createTasks_proj (n aeId : Nat) (hh : String) (sd : Int)
    (l : List SuggestedTaskSpec) :
    (createTasks n aeId hh sd l).map
        (fun t => (t.title, t.type, t.priority, t.dueDate, t.status)) =
      l.map (fun st =>
        (st.title, st.type, st.priority, sd - st.daysBeforeEvent * dayMs,
         "pending")) := by
  induction l generalizing n with
  | nil => simp [createTasks]
  | cons st rest ih => simp [createTasks, mkTaskRec, ih]

theorem createTasks_filter_aeId (n aeId : Nat) (hh : String) (sd : Int)
    (l : List SuggestedTaskSpec) :
    (createTasks n aeId hh sd l).filter (fun t => t.analyzedEventId == aeId) =
      createTasks n aeId hh sd l := by
  rw [List.filter_eq_self]
  intro t ht
  simpa using createTasks_aeId n aeId hh sd l t ht

theorem countP_eq_one_of_find? {p : AnalyzedEventRec → Bool}
    {l : List AnalyzedEventRec} {a : AnalyzedEventRec}
    (h : l.find? p = some a) (hle : l.countP p ≤ 1) : l.countP p = 1 := by
  have hmem := List.mem_of_find?_eq_some h
  have hpa := List.find?_some h
  have hpos : 0 < l.countP p := List.countP_pos_iff.mpr ⟨a, hmem, hpa⟩
  omega

theorem countP_upsertByEventId (k : String) (u : AnalyzedEventRec)
    (l : List AnalyzedEventRec) (hu : (u.eventId == k) = true) :
    (upsertByEventId k u l).countP (fun r => r.eventId == k) =
      l.countP (fun r => r.eventId == k) := by
  induction l with
  | nil => rfl
  | cons r rs ih =>
    by_cases h : (r.eventId == k) = true
    · simp [upsertByEventId, h, List.countP_cons, hu]
    · simp [upsertByEventId, h, List.countP_cons, ih]

/-! ## Claim theorems -/

/-- C2 (counterexample): a model reply consisting of just an empty JSON
object is an analysis failure in the claim's sense (it is missing every
required field), yet the client does not return the claimed default: the
result's confidence is 0.8, not 0.1, and its reasoning is empty. -/
theorem analyzeCalendarEvent_missing_fields_not_default :
    (Enhanced.analyzeCalendarEvent
        (fun s => if s == "\x7b\x7d" then .ok (.obj []) else .error ())
        (.text "\x7b\x7d")).confidence = .num 0.8 ∧
      Enhanced.failureAnalysis.confidence = .num 0.1 ∧
      Enhanced.analyzeCalendarEvent
          (fun s => if s == "\x7b\x7d" then .ok (.obj []) else .error ())
          (.text "\x7b\x7d") ≠ Enhanced.failureAnalysis := by
  refine ⟨rfl, rfl, fun h => ?_⟩
  have h2 : Enhanced.JsValue.num 0.8 = Enhanced.JsValue.num 0.1 :=
    congrArg Enhanced.EventAnalysis.confidence h
  injection h2 with h3
  norm_num at h3

/-- C2 (amended): the settings-aware Analysis Client always returns; it
returns the 0.1-confidence failure default exactly when an exception is
thrown inside its try block — a provider failure, a non-text content
block, a reply whose extracted text fails to parse as JSON, or a reply
parsing to null (so that property access throws). A reply parsing to an
object is accepted even with required fields missing: each absent or
falsy field is replaced individually, with confidence falling back to
0.8, not 0.1. -/
theorem analyzeCalendarEvent_failure_policy
    (parse : String → Except Unit Enhanced.JsValue) :
    (∀ response : Enhanced.ProviderResponse,
      (response = .failure ∨ response = .nonText ∨
        (∃ body, response = .text body ∧
          (parse ((Enhanced.braceSpan body).getD body) = .error () ∨
           parse ((Enhanced.braceSpan body).getD body) = .ok .null))) →
      Enhanced.analyzeCalendarEvent parse response = Enhanced.failureAnalysis) ∧
    (∀ body fields,
      parse ((Enhanced.braceSpan body).getD body) = .ok (.obj fields) →
      Enhanced.analyzeCalendarEvent parse (.text body) =
        { eventType := Enhanced.jsOr (fields.lookup "eventType") (.str "other")
          requiresSitter :=
            Enhanced.jsOr (fields.lookup "requiresSitter") (.bool false)
          requiresTravel :=
            Enhanced.jsOr (fields.lookup "requiresTravel") (.bool false)
          requiresFormalAttire :=
            Enhanced.jsOr (fields.lookup "requiresFormalAttire") (.bool false)
          tasks := Enhanced.jsOr (fields.lookup "tasks") (.arr [])
          reasoning := Enhanced.jsOr (fields.lookup "reasoning") (.str "")
          confidence := Enhanced.jsOr (fields.lookup "confidence") (.num 0.8) }) := by
  constructor
  · rintro response (rfl | rfl | ⟨body, rfl, hp | hp⟩)
    · rfl
    · rfl
    · simp only [Enhanced.analyzeCalendarEvent, hp]
    · simp only [Enhanced.analyzeCalendarEvent, hp]
      rfl
  · intro body fields hp
    simp only [Enhanced.analyzeCalendarEvent, hp]
    rfl

/-- C2 (witness): a provider failure yields exactly the failure default. -/
theorem analyzeCalendarEvent_failure_policy_witness :
    Enhanced.analyzeCalendarEvent (fun _ => .error ()) .failure =
      Enhanced.failureAnalysis :=
  (analyzeCalendarEvent_failure_policy (fun _ => .error ())).1 .failure
    (Or.inl rfl)

/-- C4: the dispatcher's per-event policy: each rate-limit (429) failure
is followed by a fixed 60000ms pause and an immediate retry of the same
event — for any number of consecutive rate limits — and the eventual
non-rate-limit outcome is recorded before any later event is touched;
any other error records the dispatcher default for the event with no
retry and no pause. -/
theorem batchDispatcher_rateLimit_policy (eventId : String) (isLast : Bool)
    (n : Nat) (a : Enhanced.EventAnalysis)
    (tail : List Enhanced.CallOutcome) :
    Enhanced.runAttempts eventId isLast
        (List.replicate n .rateLimitError ++ .ok a :: tail) =
      (some a,
       (List.replicate n
          ([.call eventId, .pause 60000] : List Enhanced.DispatchAction)).flatten ++
        ([.call eventId, .record eventId a] ++
          if isLast then [] else [.pause 1500])) ∧
    Enhanced.runAttempts eventId isLast
        (List.replicate n .rateLimitError ++ .otherError :: tail) =
      (some Enhanced.batchDefault,
       (List.replicate n
          ([.call eventId, .pause 60000] : List Enhanced.DispatchAction)).flatten ++
        [.call eventId, .record eventId Enhanced.batchDefault]) := by
  constructor <;> induction n with
  | zero => simp [Enhanced.runAttempts]
  | succ k ih => simp [List.replicate_succ, Enhanced.runAttempts, ih]

/-- C8: on the write path of `saveAnalyzedEvent`, every materialized task
row starts with status `pending` and is due exactly `daysBeforeEvent`
days before the event's start date. -/
theorem saveAnalyzedEvent_pending_and_offset (hh : String)
    (ev : CalendarEvent) (an : EventAnalysis) (now : Int) (db : Db)
    (hwrite : db.analyzedEvents.find? (fun r => r.eventId == ev.id) = none ∨
      an.forceReanalysis = true) :
    ∀ t ∈ (saveAnalyzedEvent hh ev an now db).1.tasks,
      t.status = "pending" ∧ ∃ st ∈ an.suggestedTasks, t.title = st.title ∧
        t.dueDate = eventStartDate ev now - st.daysBeforeEvent * dayMs := by
  intro t ht
  have key : ∃ base aeId,
      t ∈ createTasks base aeId hh (eventStartDate ev now)
        an.suggestedTasks := by
    rcases hwrite with hnone | hforce
    · refine ⟨db.nextId + 1, db.nextId, ?_⟩
      simpa [saveAnalyzedEvent, hnone, writeTasks] using ht
    · cases hfind : db.analyzedEvents.find? fun r => r.eventId == ev.id with
      | none =>
        refine ⟨db.nextId + 1, db.nextId, ?_⟩
        simpa [saveAnalyzedEvent, hfind, writeTasks] using ht
      | some ex =>
        refine ⟨db.nextId, ex.id, ?_⟩
        simpa [saveAnalyzedEvent, hfind, hforce, writeTasks] using ht
  obtain ⟨base, aeId, hmem⟩ := key
  exact createTasks_spec base aeId hh (eventStartDate ev now)
    an.suggestedTasks t hmem

/-- C8 (witness): the one task materialized for `sampleAnalysis` and
`sampleEvent` in an empty store is pending and due `daysBeforeEvent`
days before the event start. -/
theorem saveAnalyzedEvent_pending_and_offset_witness :
    (mkTaskRec 1 0 "h" (eventStartDate sampleEvent 0)
        ⟨"Book babysitter", "booking", 7, "high", none⟩).status = "pending" ∧
      ∃ st ∈ sampleAnalysis.suggestedTasks,
        (mkTaskRec 1 0 "h" (eventStartDate sampleEvent 0)
            ⟨"Book babysitter", "booking", 7, "high", none⟩).title =
          st.title ∧
        (mkTaskRec 1 0 "h" (eventStartDate sampleEvent 0)
            ⟨"Book babysitter", "booking", 7, "high", none⟩).dueDate =
          eventStartDate sampleEvent 0 - st.daysBeforeEvent * dayMs :=
  saveAnalyzedEvent_pending_and_offset "h" sampleEvent sampleAnalysis 0 emptyDb
    (Or.inl rfl)
    (mkTaskRec 1 0 "h" (eventStartDate sampleEvent 0)
      ⟨"Book babysitter", "booking", 7, "high", none⟩)
    (by decide)

/-- C9 (code evaluated at the failing input): posting to the analyze
route with `skipCache = true` in development mode, for an event that
already has a cached `AnalyzedEvent`, with a changed analysis for it,
leaves the store completely unchanged — the `skipCache` branch only
logs, nothing ever sets the force flag, so `saveAnalyzedEvent` takes the
cache-hit path instead of overwriting the stored analysis and tasks. -/
theorem skipCache_does_not_force_reanalysis :
    analyzeRoutePost "h" true true [sampleEvent]
        [("evt1", sampleAnalysisUnforced)] 0 cachedDb = cachedDb ∧
      sampleAnalysisUnforced.eventType ≠ cachedRec.analysisData.eventType ∧
      cachedRec.eventId = sampleEvent.id := by
  refine ⟨by decide, by decide, rfl⟩

/-- C6: with the force flag clear, saving the same (event, analysis) pair
on top of its own first save is a no-op: the second call returns the very
record and task set of the first call and leaves the store untouched,
and the store holds exactly one `AnalyzedEvent` row for the event id. -/
theorem saveAnalyzedEvent_cache_idempotent (hh : String)
    (ev : CalendarEvent) (an : EventAnalysis) (now₁ now₂ : Int) (db : Db)
    (hforce : an.forceReanalysis = false)
    (huniq : db.analyzedEvents.countP (fun r => r.eventId == ev.id) ≤ 1) :
    saveAnalyzedEvent hh ev an now₂ (saveAnalyzedEvent hh ev an now₁ db).2 =
      ((saveAnalyzedEvent hh ev an now₁ db).1,
       (saveAnalyzedEvent hh ev an now₁ db).2) ∧
    ((saveAnalyzedEvent hh ev an now₁ db).2).analyzedEvents.countP
        (fun r => r.eventId == ev.id) = 1 := by
  cases hfind : db.analyzedEvents.find? fun r => r.eventId == ev.id with
  | some ex =>
    constructor
    · simp [saveAnalyzedEvent, hfind, hforce]
    · simpa [saveAnalyzedEvent, hfind, hforce] using
        countP_eq_one_of_find? hfind huniq
  | none =>
    have hcount0 : db.analyzedEvents.countP (fun r => r.eventId == ev.id) = 0 :=
      List.countP_eq_zero.mpr (List.find?_eq_none.mp hfind)
    constructor
    · simp only [saveAnalyzedEvent, hfind, writeTasks]
      rw [List.find?_append, hfind]
      simp only [Option.none_or, List.find?_cons, beq_self_eq_true,
        hforce, Bool.not_false, if_true]
      refine Prod.ext ?_ rfl
      refine congrArg (SaveResult.mk _) ?_
      rw [List.filter_append, List.filter_filter,
        List.filter_eq_nil_iff.mpr (fun a _ => by simp), List.nil_append,
        createTasks_filter_aeId]
    · simp only [saveAnalyzedEvent, hfind, writeTasks]
      rw [List.countP_append, hcount0]
      simp [List.countP_cons]

/-- C6 (witness): saving the same pair twice into an empty store. -/
theorem saveAnalyzedEvent_cache_idempotent_witness :
    saveAnalyzedEvent "h" sampleEvent sampleAnalysis 2
        (saveAnalyzedEvent "h" sampleEvent sampleAnalysis 1 emptyDb).2 =
      ((saveAnalyzedEvent "h" sampleEvent sampleAnalysis 1 emptyDb).1,
       (saveAnalyzedEvent "h" sampleEvent sampleAnalysis 1 emptyDb).2) ∧
    ((saveAnalyzedEvent "h" sampleEvent sampleAnalysis 1
        emptyDb).2).analyzedEvents.countP
        (fun r => r.eventId == sampleEvent.id) = 1 :=
  saveAnalyzedEvent_cache_idempotent "h" sampleEvent sampleAnalysis 1 2 emptyDb
    rfl (by decide)

/-- C7: with the force flag set, re-materializing a different analysis
for an already-analyzed event id leaves that `AnalyzedEvent` owning
exactly the task rows derived from the new analysis's suggested tasks,
none of its previously stored tasks survive, and the store still holds
exactly one `AnalyzedEvent` row for the event id. -/
theorem saveAnalyzedEvent_force_replaces (hh : String) (ev : CalendarEvent)
    (an : EventAnalysis) (now : Int) (db : Db) (ex : AnalyzedEventRec)
    (hex : db.analyzedEvents.find? (fun r => r.eventId == ev.id) = some ex)
    (hforce : an.forceReanalysis = true)
    (huniq : db.analyzedEvents.countP (fun r => r.eventId == ev.id) ≤ 1)
    (hfresh : ∀ t ∈ db.suggestedTasks, t.id < db.nextId) :
    ((saveAnalyzedEvent hh ev an now db).2.suggestedTasks.filter
        fun t => t.analyzedEventId == ex.id) =
      (saveAnalyzedEvent hh ev an now db).1.tasks ∧
    ((saveAnalyzedEvent hh ev an now db).1.tasks.map
        fun t => (t.title, t.type, t.priority, t.dueDate, t.status)) =
      (an.suggestedTasks.map fun st => (st.title, st.type, st.priority,
        eventStartDate ev now - st.daysBeforeEvent * dayMs, "pending")) ∧
    (∀ t ∈ db.suggestedTasks, t.analyzedEventId = ex.id →
      t ∉ (saveAnalyzedEvent hh ev an now db).2.suggestedTasks) ∧
    (saveAnalyzedEvent hh ev an now db).2.analyzedEvents.countP
        (fun r => r.eventId == ev.id) = 1 := by
  have hpred : (ex.eventId == ev.id) = true := by
    simpa using List.find?_some hex
  refine ⟨?_, ?_, ?_, ?_⟩
  · simp only [saveAnalyzedEvent, hex, hforce, writeTasks, Bool.not_true,
      Bool.false_eq_true, if_false]
    rw [List.filter_append, List.filter_filter,
      List.filter_eq_nil_iff.mpr (fun a _ => by simp), List.nil_append,
      createTasks_filter_aeId]
  · simp only [saveAnalyzedEvent, hex, hforce, writeTasks, Bool.not_true,
      Bool.false_eq_true, if_false]
    exact createTasks_proj _ _ _ _ _
  · intro t ht hae hmem
    simp only [saveAnalyzedEvent, hex, hforce, writeTasks, Bool.not_true,
      Bool.false_eq_true, if_false] at hmem
    rcases List.mem_append.mp hmem with hk | hn
    · have := (List.mem_filter.mp hk).2
      simp [hae] at this
    · have hge := createTasks_id_ge _ _ _ _ _ t hn
      have hlt := hfresh t ht
      omega
  · simp only [saveAnalyzedEvent, hex, hforce, writeTasks, Bool.not_true,
      Bool.false_eq_true, if_false]
    refine Eq.trans ?_ (countP_eq_one_of_find? hex huniq)
    exact countP_upsertByEventId ev.id _ db.analyzedEvents hpred

/-- C7 (witness): forcing a different analysis over the cached store. -/
theorem saveAnalyzedEvent_force_replaces_witness :
    ((saveAnalyzedEvent "h" sampleEvent sampleAnalysisForced 0
        cachedDb).2.suggestedTasks.filter
        fun t => t.analyzedEventId == cachedRec.id) =
      (saveAnalyzedEvent "h" sampleEvent sampleAnalysisForced 0
        cachedDb).1.tasks ∧
    ((saveAnalyzedEvent "h" sampleEvent sampleAnalysisForced 0
        cachedDb).1.tasks.map
        fun t => (t.title, t.type, t.priority, t.dueDate, t.status)) =
      (sampleAnalysisForced.suggestedTasks.map fun st =>
        (st.title, st.type, st.priority,
         eventStartDate sampleEvent 0 - st.daysBeforeEvent * dayMs,
         "pending")) ∧
    (∀ t ∈ cachedDb.suggestedTasks, t.analyzedEventId = cachedRec.id →
      t ∉ (saveAnalyzedEvent "h" sampleEvent sampleAnalysisForced 0
        cachedDb).2.suggestedTasks) ∧
    (saveAnalyzedEvent "h" sampleEvent sampleAnalysisForced 0
        cachedDb).2.analyzedEvents.countP
        (fun r => r.eventId == sampleEvent.id) = 1 :=
  saveAnalyzedEvent_force_replaces "h" sampleEvent sampleAnalysisForced 0
    cachedDb cachedRec (by decide) rfl (by decide) (by decide)

/-- C1 (counterexample): a pending task due one day in the past is not
returned at all — the query's `gte: new Date()` bound excludes it, so the
overdue bucket (and the whole result) is empty, where the claim puts the
task in the overdue bucket. -/
theorem pastDue_pending_task_not_returned :
    (getUpcomingTasks "h" 30 false 0 overdueDb).overdue = [] ∧
    (getUpcomingTasks "h" 30 false 0 overdueDb).all = [] ∧
    overdueTask ∈ overdueDb.suggestedTasks ∧
    overdueTask.status = "pending" ∧ overdueTask.dueDate < 0 := by
  decide

/-- C1 (amended): with the default options, the Task Bucketizer returns
exactly the pending tasks of the household due between now and thirty
days out — past-due tasks are excluded, so the overdue bucket is always
empty — and partitions the returned tasks into this-week
(now ≤ due < now+7d), next-week (now+7d ≤ due < now+14d) and later
(due ≥ now+14d) by due date. -/
theorem getUpcomingTasks_window_and_buckets (hh : String) (now : Int)
    (db : Db) :
    (∀ t : SuggestedTaskRec,
      t ∈ (getUpcomingTasks hh 30 false now db).all ↔
        t ∈ db.suggestedTasks ∧ t.householdId = hh ∧ t.status = "pending" ∧
          t.dueDate ≤ now + 30 * dayMs ∧ now ≤ t.dueDate) ∧
    (getUpcomingTasks hh 30 false now db).overdue = [] ∧
    (∀ t : SuggestedTaskRec,
      t ∈ (getUpcomingTasks hh 30 false now db).thisWeek ↔
        t ∈ (getUpcomingTasks hh 30 false now db).all ∧
          t.dueDate < now + 7 * dayMs) ∧
    (∀ t : SuggestedTaskRec,
      t ∈ (getUpcomingTasks hh 30 false now db).nextWeek ↔
        t ∈ (getUpcomingTasks hh 30 false now db).all ∧
          now + 7 * dayMs ≤ t.dueDate ∧ t.dueDate < now + 14 * dayMs) ∧
    (∀ t : SuggestedTaskRec,
      t ∈ (getUpcomingTasks hh 30 false now db).later ↔
        t ∈ (getUpcomingTasks hh 30 false now db).all ∧
          now + 14 * dayMs ≤ t.dueDate) := by
  have hall : ∀ t : SuggestedTaskRec,
      t ∈ (getUpcomingTasks hh 30 false now db).all ↔
        t ∈ db.suggestedTasks ∧ t.householdId = hh ∧ t.status = "pending" ∧
          t.dueDate ≤ now + 30 * dayMs ∧ now ≤ t.dueDate := by
    intro t
    refine ((List.mem_insertionSort taskBefore).trans List.mem_filter).trans ?_
    simp [upcomingFilter, and_assoc]
  have hnow : ∀ t : SuggestedTaskRec,
      t ∈ (getUpcomingTasks hh 30 false now db).all → now ≤ t.dueDate :=
    fun t ht => ((hall t).mp ht).2.2.2.2
  refine ⟨hall, ?_, ?_, ?_, ?_⟩
  · refine List.filter_eq_nil_iff.mpr fun t ht => ?_
    have h2 := hnow t ht
    simp only [decide_eq_true_eq]
    omega
  · intro t
    constructor
    · intro ht
      obtain ⟨hmem, hpred⟩ := List.mem_filter.mp ht
      simp only [Bool.and_eq_true, decide_eq_true_eq] at hpred
      exact ⟨hmem, hpred.2⟩
    · rintro ⟨hta, hlt⟩
      refine List.mem_filter.mpr ⟨hta, ?_⟩
      have h2 := hnow t hta
      simp only [Bool.and_eq_true, decide_eq_true_eq]
      omega
  · intro t
    constructor
    · intro ht
      obtain ⟨hmem, hpred⟩ := List.mem_filter.mp ht
      simp only [Bool.and_eq_true, decide_eq_true_eq] at hpred
      exact ⟨hmem, hpred.1, hpred.2⟩
    · rintro ⟨hta, h7, h14⟩
      refine List.mem_filter.mpr ⟨hta, ?_⟩
      simp only [Bool.and_eq_true, decide_eq_true_eq]
      omega
  · intro t
    constructor
    · intro ht
      obtain ⟨hmem, hpred⟩ := List.mem_filter.mp ht
      simp only [decide_eq_true_eq] at hpred
      exact ⟨hmem, hpred⟩
    · rintro ⟨hta, h14⟩
      refine List.mem_filter.mpr ⟨hta, ?_⟩
      simp only [decide_eq_true_eq]
      omega

/-- C5 (counterexample): two pending tasks share a due date; the one with
priority `medium` is returned before the one with priority `high`,
because the `priority: 'desc'` clause orders the stored priority strings
by descending text comparison, under which `medium` is largest. The
spec's claimed order (high before medium before low) therefore fails. -/
theorem tie_puts_medium_before_high :
    (getUpcomingTasks "h" 30 false 0 tieDb).all = [tMedium, tHigh] ∧
    ¬ (getUpcomingTasks "h" 30 false 0 tieDb).all.Pairwise
        claimedTaskBefore := by
  constructor
  · decide
  · decide

/-- C5 (amended): the overall result list of the Task Bucketizer is
sorted by ascending due date, with ties broken by descending SQLite text
comparison of the priority strings — which orders `medium` before `low`
before `high`, not high first. -/
theorem getUpcomingTasks_sorted (hh : String) (daysAhead : Int)
    (includeCompleted : Bool) (now : Int) (db : Db) :
    (getUpcomingTasks hh daysAhead includeCompleted now db).all.Pairwise
        taskBefore ∧
    (∀ a b : SuggestedTaskRec, taskBefore a b ↔
      (a.dueDate < b.dueDate ∨
        (a.dueDate = b.dueDate ∧ textLe b.priority a.priority = true))) := by
  exact ⟨List.sorted_insertionSort taskBefore _, fun a b => Iff.rfl⟩

theorem runAttempts_isSome (eid : String) (last : Bool)
    (tr : List Enhanced.CallOutcome) (h : Enhanced.terminates tr = true) :
    (Enhanced.runAttempts eid last tr).1.isSome = true := by
  induction tr with
  | nil => simp [Enhanced.terminates] at h
  | cons o rest ih =>
    cases o with
    | ok a => simp [Enhanced.runAttempts]
    | otherError => simp [Enhanced.runAttempts]
    | rateLimitError =>
      have h2 : Enhanced.terminates rest = true := by
        simpa [Enhanced.terminates] using h
      simpa [Enhanced.runAttempts] using ih h2

theorem runAttempts_result (eid : String) (last : Bool)
    (tr : List Enhanced.CallOutcome) (v : Enhanced.EventAnalysis)
    (h : (Enhanced.runAttempts eid last tr).1 = some v) :
    v = Enhanced.batchDefault ∨ Enhanced.CallOutcome.ok v ∈ tr := by
  induction tr with
  | nil => simp [Enhanced.runAttempts] at h
  | cons o rest ih =>
    cases o with
    | ok a =>
      simp only [Enhanced.runAttempts, Option.some.injEq] at h
      exact Or.inr (by simp [← h])
    | otherError =>
      simp only [Enhanced.runAttempts, Option.some.injEq] at h
      exact Or.inl h.symm
    | rateLimitError =>
      simp only [Enhanced.runAttempts] at h
      rcases ih h with h1 | h1
      · exact Or.inl h1
      · exact Or.inr (List.mem_cons_of_mem _ h1)

theorem lookup_mapSet_self (m : List (String × Enhanced.EventAnalysis))
    (k : String) (v : Enhanced.EventAnalysis) :
    (Enhanced.mapSet m k v).lookup k = some v := by
  induction m with
  | nil => simp [Enhanced.mapSet, List.lookup]
  | cons p rest ih =>
    obtain ⟨a, b⟩ := p
    by_cases hp : a = k
    · have h2 : (a == k) = true := by simpa using hp
      simp [Enhanced.mapSet, h2, List.lookup]
    · have h2 : (a == k) = false := by simpa using hp
      have h3 : (k == a) = false := by simpa using Ne.symm hp
      simp [Enhanced.mapSet, h2, List.lookup, h3, ih]

theorem lookup_mapSet_ne (m : List (String × Enhanced.EventAnalysis))
    (k k' : String) (v : Enhanced.EventAnalysis) (h : k' ≠ k) :
    (Enhanced.mapSet m k v).lookup k' = m.lookup k' := by
  induction m with
  | nil =>
    have h1 : (k' == k) = false := by simpa using h
    simp [Enhanced.mapSet, List.lookup, h1]
  | cons p rest ih =>
    obtain ⟨a, b⟩ := p
    by_cases hp : a = k
    · have h1 : (k' == k) = false := by simpa using h
      have h2 : (a == k) = true := by simpa using hp
      have h3 : (k' == a) = false := by simpa using hp ▸ h
      simp [Enhanced.mapSet, h2, List.lookup, h1, h3]
    · have h2 : (a == k) = false := by simpa using hp
      cases hk : k' == a <;> simp [Enhanced.mapSet, h2, List.lookup, hk, ih]

theorem mapSet_mem (m : List (String × Enhanced.EventAnalysis)) (k : String)
    (v : Enhanced.EventAnalysis) :
    ∀ p ∈ Enhanced.mapSet m k v, p ∈ m ∨ p = (k, v) := by
  induction m with
  | nil => simp [Enhanced.mapSet]
  | cons q rest ih =>
    intro p hp
    obtain ⟨a, b⟩ := q
    by_cases hq : a = k
    · have h2 : (a == k) = true := by simpa using hq
      simp only [Enhanced.mapSet, h2, if_true] at hp
      rcases List.mem_cons.mp hp with h | h
      · exact Or.inr h
      · exact Or.inl (List.mem_cons_of_mem _ h)
    · have h2 : (a == k) = false := by simpa using hq
      simp only [Enhanced.mapSet, h2, Bool.false_eq_true, if_false] at hp
      rcases List.mem_cons.mp hp with h | h
      · exact Or.inl (by simp [h])
      · rcases ih p h with h3 | h3
        · exact Or.inl (List.mem_cons_of_mem _ h3)
        · exact Or.inr h3

theorem mapSet_keys_mem (k : String) (v : Enhanced.EventAnalysis)
    (a' : String) :
    ∀ m, a' ∈ (Enhanced.mapSet m k v).map Prod.fst ↔
      a' ∈ m.map Prod.fst ∨ a' = k := by
  intro m
  induction m with
  | nil => simp [Enhanced.mapSet, eq_comm]
  | cons q rest ih =>
    obtain ⟨a, b⟩ := q
    by_cases hq : a = k
    · subst hq
      simp only [Enhanced.mapSet, beq_self_eq_true, if_true, List.map_cons,
        List.mem_cons]
      tauto
    · have h2 : (a == k) = false := by simpa using hq
      simp only [Enhanced.mapSet, h2, Bool.false_eq_true, if_false,
        List.map_cons, List.mem_cons, ih]
      tauto

theorem mapSet_keys_nodup (m : List (String × Enhanced.EventAnalysis))
    (k : String) (v : Enhanced.EventAnalysis)
    (hn : (m.map Prod.fst).Nodup) :
    ((Enhanced.mapSet m k v).map Prod.fst).Nodup := by
  induction m with
  | nil => simp [Enhanced.mapSet]
  | cons q rest ih =>
    obtain ⟨a, b⟩ := q
    simp only [List.map_cons, List.nodup_cons] at hn
    obtain ⟨hna, hnr⟩ := hn
    by_cases hq : a = k
    · have h2 : (a == k) = true := by simpa using hq
      simp only [Enhanced.mapSet, h2, if_true, List.map_cons,
        List.nodup_cons]
      exact ⟨hq ▸ hna, hnr⟩
    · have h2 : (a == k) = false := by simpa using hq
      simp only [Enhanced.mapSet, h2, Bool.false_eq_true, if_false,
        List.map_cons, List.nodup_cons]
      refine ⟨fun hmem => ?_, ih hnr⟩
      rcases (mapSet_keys_mem k v a rest).mp hmem with h | h
      · exact hna h
      · exact hq h

theorem batchGo_keys (oracle : CalendarEvent → List Enhanced.CallOutcome) :
    ∀ (events : List CalendarEvent)
      (acc : List (String × Enhanced.EventAnalysis)),
      (∀ e ∈ events, Enhanced.terminates (oracle e) = true) →
      ((∀ a, a ∈ (Enhanced.analyzeBatchGo oracle acc events).1.map Prod.fst ↔
          a ∈ acc.map Prod.fst ∨ a ∈ events.map CalendarEvent.id) ∧
        ((acc.map Prod.fst).Nodup →
          ((Enhanced.analyzeBatchGo oracle acc events).1.map
            Prod.fst).Nodup)) := by
  intro events
  induction events with
  | nil =>
    intro acc _
    constructor
    · intro a; simp [Enhanced.analyzeBatchGo]
    · intro h; simpa [Enhanced.analyzeBatchGo] using h
  | cons e rest ih =>
    intro acc hterm
    cases hra : Enhanced.runAttempts e.id rest.isEmpty (oracle e) with
    | mk r1 log =>
      cases r1 with
      | none =>
        exfalso
        have hs := runAttempts_isSome e.id rest.isEmpty (oracle e)
          (hterm e (by simp))
        rw [hra] at hs
        simp at hs
      | some v =>
        have hgo1 : (Enhanced.analyzeBatchGo oracle acc (e :: rest)).1 =
            (Enhanced.analyzeBatchGo oracle (Enhanced.mapSet acc e.id v)
              rest).1 := by
          simp [Enhanced.analyzeBatchGo, hra]
        obtain ⟨ihA, ihB⟩ := ih (Enhanced.mapSet acc e.id v)
          (fun e2 he2 => hterm e2 (List.mem_cons_of_mem _ he2))
        constructor
        · intro a
          rw [hgo1, ihA a, mapSet_keys_mem]
          simp only [List.map_cons, List.mem_cons]
          tauto
        · intro hnodup
          rw [hgo1]
          exact ihB (mapSet_keys_nodup acc e.id v hnodup)

theorem batchGo_values (oracle : CalendarEvent → List Enhanced.CallOutcome) :
    ∀ (events : List CalendarEvent)
      (acc : List (String × Enhanced.EventAnalysis)),
      ∀ p ∈ (Enhanced.analyzeBatchGo oracle acc events).1,
        p ∈ acc ∨ p.2 = Enhanced.batchDefault ∨
          ∃ e ∈ events, Enhanced.CallOutcome.ok p.2 ∈ oracle e := by
  intro events
  induction events with
  | nil =>
    intro acc p hp
    exact Or.inl (by simpa [Enhanced.analyzeBatchGo] using hp)
  | cons e rest ih =>
    intro acc p hp
    cases hra : Enhanced.runAttempts e.id rest.isEmpty (oracle e) with
    | mk r1 log =>
      cases r1 with
      | none =>
        rw [show (Enhanced.analyzeBatchGo oracle acc (e :: rest)).1 = acc by
          simp [Enhanced.analyzeBatchGo, hra]] at hp
        exact Or.inl hp
      | some v =>
        rw [show (Enhanced.analyzeBatchGo oracle acc (e :: rest)).1 =
            (Enhanced.analyzeBatchGo oracle (Enhanced.mapSet acc e.id v)
              rest).1 by
          simp [Enhanced.analyzeBatchGo, hra]] at hp
        rcases ih (Enhanced.mapSet acc e.id v) p hp with h | h | h
        · rcases mapSet_mem acc e.id v p h with h2 | h2
          · exact Or.inl h2
          · have hv : (Enhanced.runAttempts e.id rest.isEmpty
                (oracle e)).1 = some v := by rw [hra]
            rcases runAttempts_result e.id rest.isEmpty (oracle e) v hv
              with h3 | h3
            · exact Or.inr (Or.inl (by rw [h2]; exact h3))
            · exact Or.inr (Or.inr ⟨e, by simp, by rw [h2]; exact h3⟩)
        · exact Or.inr (Or.inl h)
        · obtain ⟨e2, he2, h3⟩ := h
          exact Or.inr (Or.inr ⟨e2, List.mem_cons_of_mem _ he2, h3⟩)

/-- C3: whenever every event's retry sequence terminates, the Batch
Dispatcher's result map has exactly one entry per distinct input event id
— its key list is duplicate-free and carries exactly the input ids — and
every entry's value is either an analysis the client eventually returned
for some input event or the dispatcher's conservative no-task default. -/
theorem analyzeBatchEvents_complete
    (oracle : CalendarEvent → List Enhanced.CallOutcome)
    (events : List CalendarEvent)
    (hterm : ∀ e ∈ events, Enhanced.terminates (oracle e) = true) :
    ((Enhanced.analyzeBatchEvents oracle events).1.map Prod.fst).Nodup ∧
    (∀ a, a ∈ (Enhanced.analyzeBatchEvents oracle events).1.map Prod.fst ↔
      a ∈ events.map CalendarEvent.id) ∧
    (∀ p ∈ (Enhanced.analyzeBatchEvents oracle events).1,
      p.2 = Enhanced.batchDefault ∨
        ∃ e ∈ events, Enhanced.CallOutcome.ok p.2 ∈ oracle e) := by
  obtain ⟨hA, hB⟩ := batchGo_keys oracle events [] hterm
  refine ⟨hB (by simp), fun a => ?_, fun p hp => ?_⟩
  · simpa using hA a
  · rcases batchGo_values oracle events [] p hp with h | h
    · simp at h
    · exact h

/-- C3 (witness): a batch where the first event is rate-limited once then
succeeds and the second fails outright. -/
theorem analyzeBatchEvents_complete_witness :
    ((Enhanced.analyzeBatchEvents sampleOracle
        [sampleEvent, sampleEvent2]).1.map Prod.fst).Nodup ∧
    (∀ a, a ∈ (Enhanced.analyzeBatchEvents sampleOracle
        [sampleEvent, sampleEvent2]).1.map Prod.fst ↔
      a ∈ [sampleEvent, sampleEvent2].map CalendarEvent.id) ∧
    (∀ p ∈ (Enhanced.analyzeBatchEvents sampleOracle
        [sampleEvent, sampleEvent2]).1,
      p.2 = Enhanced.batchDefault ∨
        ∃ e ∈ [sampleEvent, sampleEvent2],
          Enhanced.CallOutcome.ok p.2 ∈ sampleOracle e) :=
  analyzeBatchEvents_complete sampleOracle [sampleEvent, sampleEvent2]
    (by decide)

theorem composedGo_step (parse : String → Except Unit Enhanced.JsValue)
    (reply : CalendarEvent → Enhanced.ProviderResponse) (e : CalendarEvent)
    (rest : List CalendarEvent)
    (acc : List (String × Enhanced.EventAnalysis)) :
    Enhanced.analyzeBatchGo (Enhanced.composedOracle parse reply) acc
        (e :: rest) =
      ((Enhanced.analyzeBatchGo (Enhanced.composedOracle parse reply)
          (Enhanced.mapSet acc e.id
            (Enhanced.analyzeCalendarEvent parse (reply e))) rest).1,
       (([.call e.id,
          .record e.id (Enhanced.analyzeCalendarEvent parse (reply e))] ++
         if rest.isEmpty then [] else [.pause 1500]) ++
        (Enhanced.analyzeBatchGo (Enhanced.composedOracle parse reply)
          (Enhanced.mapSet acc e.id
            (Enhanced.analyzeCalendarEvent parse (reply e))) rest).2)) := by
  simp [Enhanced.analyzeBatchGo, Enhanced.composedOracle,
    Enhanced.runAttempts]

theorem composedGo_lookup_frozen (parse : String → Except Unit Enhanced.JsValue)
    (reply : CalendarEvent → Enhanced.ProviderResponse) :
    ∀ (events : List CalendarEvent)
      (acc : List (String × Enhanced.EventAnalysis)) (k : String),
      k ∉ events.map CalendarEvent.id →
      (Enhanced.analyzeBatchGo (Enhanced.composedOracle parse reply) acc
        events).1.lookup k = acc.lookup k := by
  intro events
  induction events with
  | nil => intro acc k _; simp [Enhanced.analyzeBatchGo]
  | cons e rest ih =>
    intro acc k hk
    simp only [List.map_cons, List.mem_cons, not_or] at hk
    obtain ⟨hk1, hk2⟩ := hk
    rw [congrArg Prod.fst (composedGo_step parse reply e rest acc)]
    rw [ih _ k hk2, lookup_mapSet_ne _ _ _ _ hk1]

theorem composedGo_lookup (parse : String → Except Unit Enhanced.JsValue)
    (reply : CalendarEvent → Enhanced.ProviderResponse) :
    ∀ (events : List CalendarEvent)
      (acc : List (String × Enhanced.EventAnalysis)),
      (events.map CalendarEvent.id).Nodup →
      ∀ e ∈ events,
        (Enhanced.analyzeBatchGo (Enhanced.composedOracle parse reply) acc
          events).1.lookup e.id =
          some (Enhanced.analyzeCalendarEvent parse (reply e)) := by
  intro events
  induction events with
  | nil => intro acc _ e he; simp at he
  | cons f rest ih =>
    intro acc hnd e he
    simp only [List.map_cons, List.nodup_cons] at hnd
    obtain ⟨hf, hndr⟩ := hnd
    rw [congrArg Prod.fst (composedGo_step parse reply f rest acc)]
    rcases List.mem_cons.mp he with he1 | he1
    · subst he1
      rw [composedGo_lookup_frozen parse reply rest _ e.id hf]
      exact lookup_mapSet_self _ _ _
    · exact ih _ hndr e he1

theorem composedGo_pauses (parse : String → Except Unit Enhanced.JsValue)
    (reply : CalendarEvent → Enhanced.ProviderResponse) :
    ∀ (events : List CalendarEvent)
      (acc : List (String × Enhanced.EventAnalysis)) (ms : Nat),
      Enhanced.DispatchAction.pause ms ∈
        (Enhanced.analyzeBatchGo (Enhanced.composedOracle parse reply) acc
          events).2 → ms = 1500 := by
  intro events
  induction events with
  | nil => intro acc ms hm; simp [Enhanced.analyzeBatchGo] at hm
  | cons e rest ih =>
    intro acc ms hm
    rw [congrArg Prod.snd (composedGo_step parse reply e rest acc)] at hm
    rcases List.mem_append.mp hm with h | h
    · rcases List.mem_append.mp h with h2 | h2
      · simp at h2
      · by_cases hr : rest.isEmpty
        · simp [hr] at h2
        · simp [hr] at h2
          exact h2
    · exact ih _ ms h

theorem composedGo_callCount (parse : String → Except Unit Enhanced.JsValue)
    (reply : CalendarEvent → Enhanced.ProviderResponse) :
    ∀ (events : List CalendarEvent)
      (acc : List (String × Enhanced.EventAnalysis)) (k : String),
      (Enhanced.analyzeBatchGo (Enhanced.composedOracle parse reply) acc
        events).2.countP (Enhanced.isCallTo k) =
        events.countP (fun e => e.id == k) := by
  intro events
  induction events with
  | nil => intro acc k; simp [Enhanced.analyzeBatchGo]
  | cons e rest ih =>
    intro acc k
    rw [congrArg Prod.snd (composedGo_step parse reply e rest acc)]
    rw [List.countP_append, List.countP_append, ih]
    by_cases hr : rest.isEmpty <;> by_cases hb : (e.id == k) = true <;>
      simp [hr, hb, List.countP_cons, Enhanced.isCallTo] <;> omega

theorem countP_id_eq_one :
    ∀ (events : List CalendarEvent),
      (events.map CalendarEvent.id).Nodup →
      ∀ e ∈ events, events.countP (fun f => f.id == e.id) = 1 := by
  intro events
  induction events with
  | nil => intro _ e he; simp at he
  | cons f rest ih =>
    intro hnd e he
    simp only [List.map_cons, List.nodup_cons] at hnd
    obtain ⟨hf, hndr⟩ := hnd
    rcases List.mem_cons.mp he with he1 | he1
    · subst he1
      have h0 : rest.countP (fun f2 => f2.id == e.id) = 0 := by
        refine List.countP_eq_zero.mpr fun x hx hEq => ?_
        exact hf (by
          have : x.id = e.id := by simpa using hEq
          exact this ▸ List.mem_map_of_mem CalendarEvent.id hx)
      rw [List.countP_cons, h0]
      simp
    · have hne : f.id ≠ e.id := fun hEq =>
        hf (hEq ▸ List.mem_map_of_mem CalendarEvent.id he1)
      rw [List.countP_cons, ih hndr e he1]
      simp [hne]

/-- C10: when the dispatcher is composed with the actual Analysis Client
— which resolves on every input — its error-handling branch never runs:
for distinct input ids, every map entry is exactly the client's result
for that event, each event is dispatched exactly once, and the only
pauses in the run are the 1.5-second pacing delays (never the 60-second
rate-limit cooldown). -/
theorem composed_dispatcher_no_error_branch
    (parse : String → Except Unit Enhanced.JsValue)
    (reply : CalendarEvent → Enhanced.ProviderResponse)
    (events : List CalendarEvent)
    (hids : (events.map CalendarEvent.id).Nodup) :
    (∀ e ∈ events,
      (Enhanced.analyzeBatchEvents (Enhanced.composedOracle parse reply)
        events).1.lookup e.id =
        some (Enhanced.analyzeCalendarEvent parse (reply e))) ∧
    (∀ ms, Enhanced.DispatchAction.pause ms ∈
      (Enhanced.analyzeBatchEvents (Enhanced.composedOracle parse reply)
        events).2 → ms = 1500) ∧
    (∀ e ∈ events,
      (Enhanced.analyzeBatchEvents (Enhanced.composedOracle parse reply)
        events).2.countP (Enhanced.isCallTo e.id) = 1) := by
  refine ⟨fun e he => composedGo_lookup parse reply events [] hids e he,
    fun ms hm => composedGo_pauses parse reply events [] ms hm,
    fun e he => ?_⟩
  rw [Enhanced.analyzeBatchEvents, composedGo_callCount parse reply events []]
  exact countP_id_eq_one events hids e he

/-- C10 (witness): a one-event batch with a failing provider still maps
the event to the client's (default) result with a single call. -/
theorem composed_dispatcher_no_error_branch_witness :
    (∀ e ∈ [sampleEvent],
      (Enhanced.analyzeBatchEvents
        (Enhanced.composedOracle (fun _ => .error ()) (fun _ => .failure))
        [sampleEvent]).1.lookup e.id =
        some (Enhanced.analyzeCalendarEvent (fun _ => .error ())
          ((fun _ => Enhanced.ProviderResponse.failure) e))) ∧
    (∀ ms, Enhanced.DispatchAction.pause ms ∈
      (Enhanced.analyzeBatchEvents
        (Enhanced.composedOracle (fun _ => .error ()) (fun _ => .failure))
        [sampleEvent]).2 → ms = 1500) ∧
    (∀ e ∈ [sampleEvent],
      (Enhanced.analyzeBatchEvents
        (Enhanced.composedOracle (fun _ => .error ()) (fun _ => .failure))
        [sampleEvent]).2.countP (Enhanced.isCallTo e.id) = 1) :=
  composed_dispatcher_no_error_branch (fun _ => .error ())
    (fun _ => .failure) [sampleEvent] (by decide)
